import Mathlib

/-!
Verification of the chart-OCR processor repository.

This file embeds, as executable Lean definitions, the parts of the
repository that the specification's claims are about:

* the merge rule used for the historical EstimatesTable / ConfidenceTable
  (`scripts/testing/test_confidence_csv_append.py`, the same
  concat / drop-duplicates-keep-last / sort logic as the processor);
* the PDF downloader `download_pdfs`
  (`src/factset_data_collector/core/downloader.py`), including its
  calendar walk, filename date encodings, per-date encoding attempts and
  the rate-limit sleep placement;
* the chart page extractor `extract_charts`
  (`src/factset_data_collector/core/extractor.py`), including filename
  date parsing, the idempotent PNG cache, the title-keyword candidate
  test and the bottom-of-page (footer) heuristic;
* the two-tier CSV writer `write_csv` (`src/service/csv_storage.py`).

Theorems named `claim_C1` .. `claim_C10` (with witnesses and
counterexamples) settle the frozen claims against these definitions.
-/

/-! ## Merge rule for the historical tables

Embedded from `scripts/testing/test_confidence_csv_append.py`, lines
64-73 ("Merge (same logic as processor)"):

```python
if existing_confidence_df.empty:
    merged_confidence_df = new_confidence_df.copy()
else:
    merged_confidence_df = pd.concat(
        [existing_confidence_df, new_confidence_df],
        ignore_index=True
    ).drop_duplicates(
        subset=['Report_Date'],
        keep='last'
    ).sort_values('Report_Date').reset_index(drop=True)
```

A table is a list of rows; a row is a report date key plus the cell
values of the columns present in that row (a cell absent from the list
is an empty cell, which is how `pd.concat` treats columns missing from
one of the frames).  Report dates are modelled as naturals, ordered as
the `pd.to_datetime` values are.
-/

/-- Row of one of the wide historical tables: report date key plus the
(column name, cell value) pairs present in the row. -/
structure Row where
  date : Nat
  cells : List (String × String)
deriving DecidableEq, Repr

/-- Embedding of `drop_duplicates(subset=['Report_Date'], keep='last')`:
a row is kept iff no later row has the same `Report_Date`; kept rows
stay in their original relative order. -/
def dedupLast : List Row → List Row
  | [] => []
  | r :: rs => if rs.any (fun r' => r'.date = r.date) then dedupLast rs else r :: dedupLast rs

/-- Row comparison used by `sort_values('Report_Date')`. -/
def rowLe (a b : Row) : Prop := a.date ≤ b.date

instance : DecidableRel rowLe := fun a b => Nat.decLe a.date b.date

instance : IsTotal Row rowLe := ⟨fun a b => Nat.le_total a.date b.date⟩

instance : IsTrans Row rowLe := ⟨fun _ _ _ h h' => Nat.le_trans h h'⟩

/-- Embedding of `sort_values('Report_Date')` (ascending; keys are
unique after `dedupLast`, so the choice of sorting algorithm does not
matter). -/
def sortByDate (l : List Row) : List Row := l.insertionSort rowLe

/-- Embedding of the merge pass of the processor (identical rule for the
EstimatesTable and the ConfidenceTable): if the existing table is empty
the batch is returned as-is (`new_confidence_df.copy()`); otherwise the
batch is concatenated onto the existing table, deduplicated by report
date keeping the last occurrence, and sorted ascending by report date. -/
def merge (existing new : List Row) : List Row :=
  if existing.isEmpty then new
  else sortByDate (dedupLast (existing ++ new))

/-! ### Merge lemmas -/

theorem dedupLast_subset {r : Row} : ∀ {l : List Row}, r ∈ dedupLast l → r ∈ l := by
  intro l
  induction l with
  | nil => simp [dedupLast]
  | cons x xs ih =>
    simp only [dedupLast]
    split
    · intro h; exact List.mem_cons_of_mem _ (ih h)
    · intro h
      rcases List.mem_cons.mp h with h | h
      · exact h ▸ List.mem_cons_self _ _
      · exact List.mem_cons_of_mem _ (ih h)

theorem mem_dedupLast_of_count_one {r : Row} :
    ∀ {l : List Row}, r ∈ l → (l.map Row.date).count r.date = 1 → r ∈ dedupLast l := by
  intro l
  induction l with
  | nil => simp
  | cons x xs ih =>
    intro hmem hcount
    simp only [List.map_cons] at hcount
    by_cases hx : r = x
    · subst hx
      rw [List.count_cons_self] at hcount
      have hnot : (xs.map Row.date).count r.date = 0 := by omega
      have hnone : ∀ r' ∈ xs, r'.date ≠ r.date := by
        intro r' hr' heq
        have : r.date ∈ xs.map Row.date := heq ▸ List.mem_map_of_mem Row.date hr'
        rw [List.count_eq_zero] at hnot
        exact hnot this
      have hany : xs.any (fun r' => r'.date = r.date) = false := by
        simp only [List.any_eq_false, decide_eq_true_eq]
        exact hnone
      simp only [dedupLast, hany, if_neg]
      exact List.mem_cons_self _ _
    · have hmem' : r ∈ xs := by
        rcases List.mem_cons.mp hmem with h | h
        · exact absurd h hx
        · exact h
      have hpos : 0 < (xs.map Row.date).count r.date :=
        List.count_pos_iff.mpr (List.mem_map_of_mem Row.date hmem')
      have hcount' : (xs.map Row.date).count r.date = 1 := by
        by_cases hd : x.date = r.date
        · rw [List.count_cons, if_pos (by simp [hd])] at hcount; omega
        · rw [List.count_cons, if_neg (by simp [hd])] at hcount; omega
      have := ih hmem' hcount'
      simp only [dedupLast]
      split
      · exact this
      · exact List.mem_cons_of_mem _ this

theorem mem_sortByDate {r : Row} {l : List Row} : r ∈ sortByDate l ↔ r ∈ l :=
  List.mem_insertionSort rowLe

theorem sortByDate_sorted (l : List Row) : List.Sorted rowLe (sortByDate l) :=
  List.sorted_insertionSort rowLe l

theorem map_date_dedupLast_nodup : ∀ {l : List Row}, ((dedupLast l).map Row.date).Nodup := by
  intro l
  induction l with
  | nil => simp [dedupLast]
  | cons x xs ih =>
    simp only [dedupLast]
    split
    · exact ih
    · rename_i hany
      simp only [List.map_cons, List.nodup_cons]
      refine ⟨fun hmem => ?_, ih⟩
      rcases List.mem_map.mp hmem with ⟨r', hr', hd⟩
      have hr'' : r' ∈ xs := dedupLast_subset hr'
      simp only [List.any_eq_true, decide_eq_true_eq, not_exists] at hany
      exact hany r' ⟨hr'', hd⟩

theorem mem_dedupLast_of_last {b : Row} :
    ∀ (l₁ l₂ : List Row), (∀ r ∈ l₂, r.date ≠ b.date) → b ∈ dedupLast (l₁ ++ b :: l₂) := by
  intro l₁
  induction l₁ with
  | nil =>
    intro l₂ h
    have hany : l₂.any (fun r' => r'.date = b.date) = false := by
      simp only [List.any_eq_false, decide_eq_true_eq]
      exact h
    simp only [List.nil_append, dedupLast, hany]
    simp
  | cons x xs ih =>
    intro l₂ h
    simp only [List.cons_append, dedupLast]
    split
    · exact ih l₂ h
    · exact List.mem_cons_of_mem _ (ih l₂ h)

theorem filter_date_length_le_one {l : List Row} (h : (l.map Row.date).Nodup) (D : Nat) :
    (l.filter (fun r => r.date = D)).length ≤ 1 := by
  induction l with
  | nil => simp
  | cons x xs ih =>
    simp only [List.map_cons, List.nodup_cons] at h
    simp only [List.filter_cons]
    split
    · rename_i hx
      simp only [decide_eq_true_eq] at hx
      have : xs.filter (fun r => r.date = D) = [] := by
        rw [List.filter_eq_nil_iff]
        intro r hr hd
        simp only [decide_eq_true_eq] at hd
        exact h.1 (hx ▸ hd ▸ List.mem_map_of_mem Row.date hr)
      simp [this]
    · exact Nat.le_trans (ih h.2) (Nat.le_refl 1)

theorem eq_singleton_of_length_le_one {b : Row} {l : List Row}
    (hlen : l.length ≤ 1) (hmem : b ∈ l) : l = [b] := by
  match l with
  | [] => cases hmem
  | [x] => rcases List.mem_singleton.mp hmem with rfl; rfl
  | x :: y :: rest => simp at hlen

/-- Claim C1, amended: for every *nonempty* existing table, the merge
concatenates the batch onto the existing table, deduplicates by report
date keeping the last occurrence, then sorts ascending by report date
(for an empty existing table the code returns the batch unchanged,
without deduplication or sort); in particular merging a batch whose
unique row for report date `D` meets an existing table already
containing `D` yields exactly one row for `D`, equal to the batch's new
row, never the prior stored one. -/
theorem claim_C1 (existing b₁ b₂ : List Row) (b : Row) (D : Nat)
    (hdate : b.date = D)
    (hb₁ : ∀ r ∈ b₁, r.date ≠ D) (hb₂ : ∀ r ∈ b₂, r.date ≠ D)
    (hex : ∃ r ∈ existing, r.date = D) :
    (merge existing (b₁ ++ b :: b₂) = sortByDate (dedupLast (existing ++ (b₁ ++ b :: b₂)))) ∧
    (merge existing (b₁ ++ b :: b₂)).filter (fun r => r.date = D) = [b] := by
  rcases hex with ⟨r₀, hr₀, hr₀d⟩
  have hne : existing.isEmpty = false := by
    cases existing with
    | nil => cases hr₀
    | cons _ _ => rfl
  have hmerge : merge existing (b₁ ++ b :: b₂) =
      sortByDate (dedupLast (existing ++ (b₁ ++ b :: b₂))) := by
    simp [merge, hne]
  refine ⟨hmerge, ?_⟩
  rw [hmerge]
  have hassoc : existing ++ (b₁ ++ b :: b₂) = (existing ++ b₁) ++ b :: b₂ := by
    simp [List.append_assoc]
  have hmemdedup : b ∈ dedupLast (existing ++ (b₁ ++ b :: b₂)) := by
    rw [hassoc]
    exact mem_dedupLast_of_last (existing ++ b₁) b₂ (fun r hr => hdate ▸ hb₂ r hr)
  have hfilter : (dedupLast (existing ++ (b₁ ++ b :: b₂))).filter (fun r => r.date = D) = [b] := by
    apply eq_singleton_of_length_le_one
    · exact filter_date_length_le_one map_date_dedupLast_nodup D
    · rw [List.mem_filter]
      exact ⟨hmemdedup, by simp [hdate]⟩
  have hperm : List.Perm (sortByDate (dedupLast (existing ++ (b₁ ++ b :: b₂))))
      (dedupLast (existing ++ (b₁ ++ b :: b₂))) := List.perm_insertionSort rowLe _
  have := (hperm.filter (fun r => decide (r.date = D)))
  rw [hfilter] at this
  exact List.perm_singleton.mp this

/-- Witness for C1: existing table stores date 5 with value "1.0"; the
batch reprocesses date 5 with value "2.0"; the merged table has exactly
one row for date 5, the batch's row. -/
theorem claim_C1_witness :
    (∃ r ∈ [(⟨1, [("Q1", "0.5")]⟩ : Row), ⟨5, [("Q1", "1.0")]⟩], r.date = 5) ∧
    (merge [⟨1, [("Q1", "0.5")]⟩, ⟨5, [("Q1", "1.0")]⟩] [⟨5, [("Q1", "2.0")]⟩]).filter
      (fun r => r.date = 5) = [⟨5, [("Q1", "2.0")]⟩] :=
  ⟨by decide,
    (claim_C1 [⟨1, [("Q1", "0.5")]⟩, ⟨5, [("Q1", "1.0")]⟩] [] [] ⟨5, [("Q1", "2.0")]⟩ 5 rfl
      (by simp) (by simp) (by decide)).2⟩

/-- Counterexample for C1 as frozen: with an *empty* existing table the
code returns the batch verbatim (`new_confidence_df.copy()`), so a
batch carrying two rows for the same report date is neither
deduplicated nor sorted, contradicting the claimed
concatenate-deduplicate-sort behaviour for *every* existing table. -/
theorem claim_C1_counterexample :
    merge [] [⟨5, [("Q1", "1.0")]⟩, ⟨5, [("Q1", "2.0")]⟩] ≠
      sortByDate (dedupLast ([] ++ [⟨5, [("Q1", "1.0")]⟩, ⟨5, [("Q1", "2.0")]⟩])) := by
  decide

/-- Claim C2: for any stored table (unique report dates, the stored-table
invariant) and any merge pass whose batch contains none of that table's
report dates, every existing row is present, unchanged as a value, in
the merged result, and every merged row is either one of the existing
rows or one of the batch's rows (only rows for newly processed report
dates are added). -/
theorem claim_C2 (existing batch : List Row)
    (hnd : (existing.map Row.date).Nodup)
    (hdisj : ∀ r ∈ existing, ∀ b ∈ batch, r.date ≠ b.date) :
    (∀ r ∈ existing, r ∈ merge existing batch) ∧
    (∀ r ∈ merge existing batch, r ∈ existing ∨ r ∈ batch) := by
  cases hex : existing with
  | nil =>
    subst hex
    constructor
    · intro r hr; cases hr
    · intro r hr
      right
      simpa [merge] using hr
  | cons e es =>
    rw [← hex]
    have hne : existing.isEmpty = false := by rw [hex]; rfl
    have hmerge : merge existing batch = sortByDate (dedupLast (existing ++ batch)) := by
      simp [merge, hne]
    rw [hmerge]
    constructor
    · intro r hr
      rw [mem_sortByDate]
      apply mem_dedupLast_of_count_one (List.mem_append_left _ hr)
      rw [List.map_append, List.count_append]
      have h1 : (existing.map Row.date).count r.date = 1 :=
        List.count_eq_one_of_mem hnd (List.mem_map_of_mem Row.date hr)
      have h2 : (batch.map Row.date).count r.date = 0 := by
        rw [List.count_eq_zero]
        intro hmem
        rcases List.mem_map.mp hmem with ⟨b, hb, hbd⟩
        exact hdisj r hr b hb hbd.symm
      omega
    · intro r hr
      rw [mem_sortByDate] at hr
      exact List.mem_append.mp (dedupLast_subset hr)

/-- Witness for C2: a stored table with dates 1 and 2 merged with a
batch for the fresh date 3 keeps both stored rows unchanged, and the
merged table only contains stored rows or batch rows. -/
theorem claim_C2_witness :
    (([(⟨1, [("Q1", "27.85")]⟩ : Row), ⟨2, [("Q1", "27.90")]⟩].map Row.date).Nodup) ∧
    (∀ r ∈ [(⟨1, [("Q1", "27.85")]⟩ : Row), ⟨2, [("Q1", "27.90")]⟩],
      r ∈ merge [⟨1, [("Q1", "27.85")]⟩, ⟨2, [("Q1", "27.90")]⟩] [⟨3, [("Q1", "28.0")]⟩]) ∧
    (∀ r ∈ merge [(⟨1, [("Q1", "27.85")]⟩ : Row), ⟨2, [("Q1", "27.90")]⟩] [⟨3, [("Q1", "28.0")]⟩],
      r ∈ [(⟨1, [("Q1", "27.85")]⟩ : Row), ⟨2, [("Q1", "27.90")]⟩] ∨ r ∈ [(⟨3, [("Q1", "28.0")]⟩ : Row)]) := by
  refine ⟨by decide, ?_, ?_⟩
  · exact (claim_C2 [⟨1, [("Q1", "27.85")]⟩, ⟨2, [("Q1", "27.90")]⟩] [⟨3, [("Q1", "28.0")]⟩]
      (by decide) (by decide)).1
  · exact (claim_C2 [⟨1, [("Q1", "27.85")]⟩, ⟨2, [("Q1", "27.90")]⟩] [⟨3, [("Q1", "28.0")]⟩]
      (by decide) (by decide)).2

/-- Claim C3, amended: after any merge pass with a *nonempty* existing
table the resulting rows are sorted ascending by report date, for every
ordering of the input rows (the EstimatesTable and the ConfidenceTable
are advanced by this same rule); a merge into an *empty* existing table
returns the batch in its given order, which need not be sorted. -/
theorem claim_C3 (existing batch : List Row) (hne : existing ≠ []) :
    List.Sorted rowLe (merge existing batch) ∧ merge [] batch = batch := by
  have hne' : existing.isEmpty = false := by
    cases existing with
    | nil => exact absurd rfl hne
    | cons _ _ => rfl
  constructor
  · simp only [merge, hne', Bool.false_eq_true, if_false]
    exact sortByDate_sorted _
  · rfl

/-- Witness for C3: merging an out-of-order batch (dates 3 then 2) into
the nonempty table holding date 1 produces rows sorted ascending by
report date. -/
theorem claim_C3_witness :
    (([(⟨1, []⟩ : Row)] : List Row) ≠ []) ∧
    List.Sorted rowLe (merge [⟨1, []⟩] [⟨3, []⟩, ⟨2, []⟩]) :=
  ⟨by decide, (claim_C3 [⟨1, []⟩] [⟨3, []⟩, ⟨2, []⟩] (by decide)).1⟩

/-- Counterexample for C3 as frozen: merging a batch ordered date 2 then
date 1 into an *empty* existing table returns the batch verbatim, which
is not sorted ascending by report date. -/
theorem claim_C3_counterexample :
    ¬ List.Sorted rowLe (merge [] [⟨2, []⟩, ⟨1, []⟩]) := by
  decide

/-! ## Calendar

Model of the date component of Python `datetime` as used by
`download_pdfs` (`src/factset_data_collector/core/downloader.py`):
proleptic Gregorian calendar, years 1..9999, comparison is
lexicographic on (year, month, day), and `current -= timedelta(days=1)`
steps back one civil day.  `dayNumber` is a civil-day count used as a
measure for the downloader's date loop. -/

/-- Date value (the date component of a Python `datetime`). -/
structure CalDate where
  year : Nat
  month : Nat
  day : Nat
deriving DecidableEq, Repr

/-- Gregorian leap-year rule (as in Python's `calendar.isleap`). -/
def isLeap (y : Nat) : Bool := (y % 4 = 0 && y % 100 != 0) || y % 400 = 0

/-- Length of a month in the Gregorian calendar. -/
def daysInMonth (y m : Nat) : Nat :=
  if m = 2 then (if isLeap y then 29 else 28)
  else if m = 4 ∨ m = 6 ∨ m = 9 ∨ m = 11 then 30
  else 31

/-- Valid dates, exactly the values representable by Python `datetime`
(year 1..9999, month 1..12, day 1..month length). -/
def ValidDate (c : CalDate) : Prop :=
  1 ≤ c.year ∧ c.year ≤ 9999 ∧ 1 ≤ c.month ∧ c.month ≤ 12 ∧
    1 ≤ c.day ∧ c.day ≤ daysInMonth c.year c.month

instance : DecidablePred ValidDate := fun c => by
  unfold ValidDate; infer_instance

/-- Strict comparison of dates, as Python compares `datetime` values
(lexicographic on the components). -/
def dateLt (a b : CalDate) : Prop :=
  a.year < b.year ∨ (a.year = b.year ∧
    (a.month < b.month ∨ (a.month = b.month ∧ a.day < b.day)))

/-- Non-strict date comparison. -/
def dateLe (a b : CalDate) : Prop := dateLt a b ∨ a = b

instance : DecidableRel dateLt := fun a b => by
  unfold dateLt; infer_instance

instance : DecidableRel dateLe := fun a b => by
  unfold dateLe; infer_instance

/-- Embedding of `current -= timedelta(days=1)`: the previous civil day. -/
def predDay (c : CalDate) : CalDate :=
  if 1 < c.day then ⟨c.year, c.month, c.day - 1⟩
  else if 1 < c.month then ⟨c.year, c.month - 1, daysInMonth c.year (c.month - 1)⟩
  else ⟨c.year - 1, 12, 31⟩

theorem daysInMonth_le_31 (y m : Nat) : daysInMonth y m ≤ 31 := by
  unfold daysInMonth
  split_ifs <;> omega

theorem daysInMonth_pos (y m : Nat) : 1 ≤ daysInMonth y m := by
  unfold daysInMonth
  split_ifs <;> omega

theorem daysInMonth_feb_le (y : Nat) : daysInMonth y 2 ≤ 29 := by
  unfold daysInMonth
  split_ifs <;> omega

theorem dateLt_irrefl (a : CalDate) : ¬ dateLt a a := by
  unfold dateLt; omega

theorem dateLt_trans {a b c : CalDate} (h1 : dateLt a b) (h2 : dateLt b c) : dateLt a c := by
  unfold dateLt at *; omega

theorem dateLe_refl (a : CalDate) : dateLe a a := Or.inr rfl

theorem dateLt_of_dateLe_of_ne {a b : CalDate} (h : dateLe a b) (hne : a ≠ b) : dateLt a b := by
  rcases h with h | h
  · exact h
  · exact absurd h hne

theorem dateLe_of_dateLt {a b : CalDate} (h : dateLt a b) : dateLe a b := Or.inl h

theorem dateLt_total (a b : CalDate) : dateLt a b ∨ a = b ∨ dateLt b a := by
  obtain ⟨ya, ma, da⟩ := a
  obtain ⟨yb, mb, db⟩ := b
  simp only [dateLt, CalDate.mk.injEq]
  omega

theorem ne_of_dateLt {a b : CalDate} (h : dateLt a b) : a ≠ b := by
  intro heq
  exact dateLt_irrefl a (heq ▸ h)

theorem predDay_lt {c : CalDate} (hv : ValidDate c) : dateLt (predDay c) c := by
  obtain ⟨y, m, d⟩ := c
  simp only [ValidDate] at hv
  simp only [predDay, dateLt]
  split_ifs <;> simp_all <;> omega

theorem predDay_valid {c : CalDate} (hv : ValidDate c)
    (h2 : 2 ≤ c.year ∨ 2 ≤ c.month ∨ 2 ≤ c.day) : ValidDate (predDay c) := by
  obtain ⟨y, m, d⟩ := c
  simp only [ValidDate] at hv ⊢
  simp only [predDay]
  split_ifs with ha hb
  · simp only
    refine ⟨hv.1, hv.2.1, hv.2.2.1, hv.2.2.2.1, by omega, by omega⟩
  · simp only
    have := daysInMonth_pos y (m - 1)
    refine ⟨hv.1, hv.2.1, by omega, by omega, this, Nat.le_refl _⟩
  · simp only at h2 ⊢
    have hy : 2 ≤ y := by omega
    have h31 : daysInMonth (y - 1) 12 = 31 := by
      unfold daysInMonth
      norm_num
    omega

theorem dateLe_trans {a b c : CalDate} (h1 : dateLe a b) (h2 : dateLe b c) : dateLe a c := by
  rcases h1 with h1 | rfl
  · rcases h2 with h2 | rfl
    · exact Or.inl (dateLt_trans h1 h2)
    · exact Or.inl h1
  · exact h2

theorem dateLe_iff {a b : CalDate} :
    dateLe a b ↔ (a.year < b.year ∨ (a.year = b.year ∧
      (a.month < b.month ∨ (a.month = b.month ∧ a.day ≤ b.day)))) := by
  obtain ⟨ya, ma, da⟩ := a
  obtain ⟨yb, mb, db⟩ := b
  simp only [dateLe, dateLt, CalDate.mk.injEq]
  omega

/-- Upper-bounding day measure of a date (372 per year, 31 per month):
it strictly decreases along `predDay` and is monotone in the date
order, so it bounds the number of iterations of the downloader's
descending date loop. -/
def dateMeasure (c : CalDate) : Nat := 372 * c.year + 31 * c.month + c.day

theorem dateMeasure_predDay_lt {c : CalDate} (hv : ValidDate c) :
    dateMeasure (predDay c) < dateMeasure c := by
  obtain ⟨y, m, d⟩ := c
  simp only [ValidDate] at hv
  obtain ⟨hy1, hy2, hm1, hm2, hd1, hd2⟩ := hv
  have h31 : daysInMonth y (m - 1) ≤ 31 := daysInMonth_le_31 y (m - 1)
  simp only [predDay, dateMeasure]
  split_ifs with ha hb <;> simp only at * <;> omega

theorem dateMeasure_mono {a b : CalDate} (hva : ValidDate a) (hvb : ValidDate b)
    (hle : dateLe a b) : dateMeasure a ≤ dateMeasure b := by
  obtain ⟨ya, ma, da⟩ := a
  obtain ⟨yb, mb, db⟩ := b
  simp only [ValidDate] at hva hvb
  have h31a : daysInMonth ya ma ≤ 31 := daysInMonth_le_31 ya ma
  simp only [dateLe, dateLt, CalDate.mk.injEq, dateMeasure] at *
  omega

theorem dateLe_predDay_of_lt {s c : CalDate} (hvs : ValidDate s) (hvc : ValidDate c)
    (hlt : dateLt s c) : dateLe s (predDay c) := by
  obtain ⟨ys, ms, ds⟩ := s
  obtain ⟨y, m, d⟩ := c
  simp only [ValidDate] at hvs hvc
  obtain ⟨hs1, hs2, hs3, hs4, hs5, hs6⟩ := hvs
  obtain ⟨hc1, hc2, hc3, hc4, hc5, hc6⟩ := hvc
  simp only [predDay]
  split_ifs with ha hb
  · simp only [dateLe, dateLt, CalDate.mk.injEq] at hlt ⊢
    omega
  · simp only at ha hb
    simp only [dateLe, dateLt, CalDate.mk.injEq] at hlt ⊢
    by_cases hys : ys = y
    · by_cases hms : ms = m - 1
      · have h6 : ds ≤ daysInMonth y (m - 1) := by rw [← hys, ← hms]; exact hs6
        omega
      · omega
    · omega
  · simp only at ha hb
    simp only [dateLe, dateLt, CalDate.mk.injEq] at hlt ⊢
    have h31 : daysInMonth ys 12 = 31 := by
      unfold daysInMonth; norm_num
    by_cases hys : ys = y - 1
    · by_cases hms : ms = 12
      · have h6 : ds ≤ 31 := by rw [← h31, ← hms]; exact hs6
        omega
      · omega
    · omega

/-! ## Downloader

Embedding of `download_pdfs`
(`src/factset_data_collector/core/downloader.py`).  The HTTP fetch is
an oracle `fetch : url → Bool` (`True` = status 200 and no exception).
The loop walks dates descending from `end_date` down to the clamped
start date; for each date it tries the two filename date encodings in
order and stops at the first success; it sleeps `rate_limit` seconds at
the end of each date iteration.  The returned blocks record, per probed
date, the attempted encodings and the manifest entry (if any); the
Python return value is the list of entries (`foundPdfs`). -/

/-- Fixed-width zero-padded decimal rendering, as Python `strftime`
produces for `%m`, `%d`, `%y` (width 2) and `%Y` (width 4, for years
1000..9999). -/
def renderPad : Nat → Nat → List Char
  | 0, _ => []
  | k + 1, n => renderPad k (n / 10) ++ [Char.ofNat (48 + n % 10)]

/-- Encoding `current.strftime("%m%d%y")`, e.g. `"061520"`. -/
def mmddyy (c : CalDate) : List Char :=
  renderPad 2 c.month ++ renderPad 2 c.day ++ renderPad 2 (c.year % 100)

/-- Encoding `current.strftime("%m%d%Y")`, e.g. `"06152020"`. -/
def mmddyyyy (c : CalDate) : List Char :=
  renderPad 2 c.month ++ renderPad 2 c.day ++ renderPad 4 c.year

/-- Encoding `current.strftime("%Y%m%d")`, e.g. `"20200615"`. -/
def yyyymmdd (c : CalDate) : List Char :=
  renderPad 4 c.year ++ renderPad 2 c.month ++ renderPad 2 c.day

/-- Base URL for FactSet PDFs (`BASE_URL` in the source). -/
def BASE_URL : List Char :=
  "https://advantage.factset.com/hubfs/Website/Resources%20Section/Research%20Desk/Earnings%20Insight/".toList

/-- URL probed for one encoding: `f"{BASE_URL}EarningsInsight_{fmt}.pdf"`. -/
def urlFor (fmt : List Char) : List Char :=
  BASE_URL ++ "EarningsInsight_".toList ++ fmt ++ ".pdf".toList

/-- Name of the saved file:
`f"EarningsInsight_{current.strftime('%Y%m%d')}_{fmt}.pdf"`. -/
def savedFilename (c : CalDate) (fmt : List Char) : List Char :=
  "EarningsInsight_".toList ++ yyyymmdd c ++ "_".toList ++ fmt ++ ".pdf".toList

/-- Manifest entry appended to `found_pdfs` for a successful fetch. -/
structure Entry where
  date : CalDate
  format : List Char
  url : List Char
  filename : List Char
deriving DecidableEq, Repr

/-- Ordered list of the filename date encodings tried for one date
(the `formats` list in the source: `%m%d%y` then `%m%d%Y`). -/
def formatsFor (c : CalDate) : List (List Char) := [mmddyy c, mmddyyyy c]

/-- Inner `for fmt in formats` loop: try each encoding in order, record
the attempted encodings, stop (`break`) at the first success. -/
def tryFormatsGo (fetch : List Char → Bool) (c : CalDate) :
    List (List Char) → List (List Char) × Option Entry
  | [] => ([], none)
  | fmt :: rest =>
    if fetch (urlFor fmt) then
      ([fmt], some ⟨c, fmt, urlFor fmt, savedFilename c fmt⟩)
    else
      let r := tryFormatsGo fetch c rest
      (fmt :: r.1, r.2)

/-- All encoding attempts and the resulting manifest entry for one date. -/
def tryFormats (fetch : List Char → Bool) (c : CalDate) : List (List Char) × Option Entry :=
  tryFormatsGo fetch c (formatsFor c)

/-- Record of one iteration of the downloader's date loop. -/
structure DateBlock where
  date : CalDate
  attempts : List (List Char)
  entry : Option Entry
deriving DecidableEq, Repr

/-- Historical origin `min_date = datetime(2016, 1, 1)`. -/
def minStartDate : CalDate := ⟨2016, 1, 1⟩

/-- Clamping of the requested start date:
`if start_date < min_date: start_date = min_date`. -/
def clampedStart (startDate : CalDate) : CalDate :=
  if dateLt startDate minStartDate then minStartDate else startDate

/-- Outer `while current >= start_date` loop, one block per probed
date, stepping `current -= timedelta(days=1)`; the fuel argument is a
bound on the iteration count (the guard, not the fuel, ends the loop
when the fuel is at least `dateMeasure current + 1 - dateMeasure startD`). -/
def probeLoop (fetch : List Char → Bool) (startD : CalDate) :
    Nat → CalDate → List DateBlock
  | 0, _ => []
  | fuel + 1, current =>
    if dateLe startD current then
      let r := tryFormats fetch current
      ⟨current, r.1, r.2⟩ :: probeLoop fetch startD fuel (predDay current)
    else []

/-- Embedding of `download_pdfs(start_date, end_date)`: clamp the start
date to the 2016-01-01 floor, then walk dates descending from the end
date while they are at or after the clamped start. -/
def download_pdfs (fetch : List Char → Bool) (startDate endDate : CalDate) : List DateBlock :=
  let s := clampedStart startDate
  probeLoop fetch s (dateMeasure endDate + 1 - dateMeasure s) endDate

/-- The Python return value: one manifest entry per date found. -/
def foundPdfs (blocks : List DateBlock) : List Entry :=
  blocks.filterMap DateBlock.entry

/-- Externally visible events of the downloader, in order: HTTP request
(`urllib.request.urlopen`) and rate-limit sleep (`time.sleep(rate_limit)`). -/
inductive Event where
  | request (date : CalDate) (url : List Char)
  | sleep
deriving DecidableEq, Repr

/-- Event trace of a run: per probed date, its requests in order, then
the end-of-iteration sleep. -/
def traceOf (blocks : List DateBlock) : List Event :=
  blocks.bind fun b => b.attempts.map (fun f => Event.request b.date (urlFor f)) ++ [Event.sleep]

/-- All (date, encoding) fetch attempts of a run, in order. -/
def attemptPairs (blocks : List DateBlock) : List (CalDate × List Char) :=
  blocks.bind fun b => b.attempts.map (fun f => (b.date, f))

/-! ### Downloader lemmas -/

theorem renderPad_length (k : Nat) : ∀ n, (renderPad k n).length = k := by
  induction k with
  | zero => intro n; rfl
  | succ k ih =>
    intro n
    simp only [renderPad, List.length_append, List.length_cons, List.length_nil, ih]

theorem mmddyy_ne_mmddyyyy (c : CalDate) : mmddyy c ≠ mmddyyyy c := by
  intro h
  have := congrArg List.length h
  simp only [mmddyy, mmddyyyy, List.length_append, renderPad_length] at this
  omega

theorem tryFormats_first_success {fetch : List Char → Bool} {c : CalDate}
    (h1 : fetch (urlFor (mmddyy c)) = true) :
    tryFormats fetch c =
      ([mmddyy c], some ⟨c, mmddyy c, urlFor (mmddyy c), savedFilename c (mmddyy c)⟩) := by
  simp [tryFormats, formatsFor, tryFormatsGo, h1]

theorem tryFormats_second_success {fetch : List Char → Bool} {c : CalDate}
    (h1 : fetch (urlFor (mmddyy c)) = false) (h2 : fetch (urlFor (mmddyyyy c)) = true) :
    tryFormats fetch c =
      ([mmddyy c, mmddyyyy c],
        some ⟨c, mmddyyyy c, urlFor (mmddyyyy c), savedFilename c (mmddyyyy c)⟩) := by
  simp [tryFormats, formatsFor, tryFormatsGo, h1, h2]

theorem tryFormats_both_fail {fetch : List Char → Bool} {c : CalDate}
    (h1 : fetch (urlFor (mmddyy c)) = false) (h2 : fetch (urlFor (mmddyyyy c)) = false) :
    tryFormats fetch c = ([mmddyy c, mmddyyyy c], none) := by
  simp [tryFormats, formatsFor, tryFormatsGo, h1, h2]

theorem tryFormats_attempts_shape (fetch : List Char → Bool) (c : CalDate) :
    (tryFormats fetch c).1 = [mmddyy c] ∨ (tryFormats fetch c).1 = [mmddyy c, mmddyyyy c] := by
  rcases Bool.eq_false_or_eq_true (fetch (urlFor (mmddyy c))) with h1 | h1
  · left; rw [tryFormats_first_success h1]
  · rcases Bool.eq_false_or_eq_true (fetch (urlFor (mmddyyyy c))) with h2 | h2
    · right; rw [tryFormats_second_success h1 h2]
    · right; rw [tryFormats_both_fail h1 h2]

theorem tryFormats_attempts_nodup (fetch : List Char → Bool) (c : CalDate) :
    (tryFormats fetch c).1.Nodup := by
  rcases tryFormats_attempts_shape fetch c with h | h <;> rw [h]
  · exact List.nodup_singleton _
  · simp [mmddyy_ne_mmddyyyy c]

theorem dateLe_minStart_year {c : CalDate} (h : dateLe minStartDate c) : 2 ≤ c.year := by
  obtain ⟨y, m, d⟩ := c
  simp only [dateLe, dateLt, minStartDate, CalDate.mk.injEq] at h
  show 2 ≤ y
  omega

theorem probeLoop_mem {fetch : List Char → Bool} {startD : CalDate}
    (hvs : ValidDate startD) (hmin : dateLe minStartDate startD) :
    ∀ (fuel : Nat) (current : CalDate), ValidDate current →
      ∀ b ∈ probeLoop fetch startD fuel current,
        ValidDate b.date ∧ dateLe startD b.date ∧ dateLe b.date current ∧
          b.attempts = (tryFormats fetch b.date).1 ∧ b.entry = (tryFormats fetch b.date).2 := by
  intro fuel
  induction fuel with
  | zero => intro current _ b hb; cases hb
  | succ fuel ih =>
    intro current hvc b hb
    simp only [probeLoop] at hb
    split at hb
    · rename_i hguard
      rcases List.mem_cons.mp hb with rfl | hb
      · exact ⟨hvc, hguard, dateLe_refl _, rfl, rfl⟩
      · have hvpred : ValidDate (predDay current) :=
          predDay_valid hvc (Or.inl (dateLe_minStart_year (dateLe_trans hmin hguard)))
        have := ih (predDay current) hvpred b hb
        refine ⟨this.1, this.2.1, ?_, this.2.2.2⟩
        exact dateLe_trans this.2.2.1 (dateLe_of_dateLt (predDay_lt hvc))
    · cases hb

theorem probeLoop_chain {fetch : List Char → Bool} {startD : CalDate}
    (hvs : ValidDate startD) (hmin : dateLe minStartDate startD) :
    ∀ (fuel : Nat) (current : CalDate), ValidDate current →
      List.Chain' (fun a b : DateBlock => dateLt b.date a.date)
        (probeLoop fetch startD fuel current) := by
  intro fuel
  induction fuel with
  | zero => intro current _; exact List.chain'_nil
  | succ fuel ih =>
    intro current hvc
    simp only [probeLoop]
    split
    · rename_i hguard
      have hvpred : ValidDate (predDay current) :=
        predDay_valid hvc (Or.inl (dateLe_minStart_year (dateLe_trans hmin hguard)))
      rw [List.chain'_cons']
      refine ⟨?_, ih (predDay current) hvpred⟩
      intro b hb
      have hmem : b ∈ probeLoop fetch startD fuel (predDay current) :=
        List.mem_of_mem_head? hb
      have := probeLoop_mem hvs hmin fuel (predDay current) hvpred b hmem
      have hble : dateLe b.date (predDay current) := this.2.2.1
      rcases hble with hblt | hbeq
      · exact dateLt_trans hblt (predDay_lt hvc)
      · rw [hbeq]; exact predDay_lt hvc
    · exact List.chain'_nil

theorem probeLoop_reach {fetch : List Char → Bool} {startD : CalDate}
    (hvs : ValidDate startD) (hmin : dateLe minStartDate startD) :
    ∀ (fuel : Nat) (current : CalDate), ValidDate current →
      dateLe startD current →
      dateMeasure current + 1 ≤ dateMeasure startD + fuel →
      ∃ b ∈ probeLoop fetch startD fuel current, b.date = startD := by
  intro fuel
  induction fuel with
  | zero =>
    intro current hvc hle hfuel
    have := dateMeasure_mono hvs hvc hle
    omega
  | succ fuel ih =>
    intro current hvc hle hfuel
    simp only [probeLoop]
    rw [if_pos hle]
    by_cases hcs : current = startD
    · exact ⟨⟨current, _, _⟩, List.mem_cons_self _ _, hcs⟩
    · have hlt : dateLt startD current :=
        dateLt_of_dateLe_of_ne hle (fun h => hcs h.symm)
      have hvpred : ValidDate (predDay current) :=
        predDay_valid hvc (Or.inl (dateLe_minStart_year (dateLe_trans hmin hle)))
      have hlepred : dateLe startD (predDay current) :=
        dateLe_predDay_of_lt hvs hvc hlt
      have hmeas : dateMeasure (predDay current) < dateMeasure current :=
        dateMeasure_predDay_lt hvc
      rcases ih (predDay current) hvpred hlepred (by omega) with ⟨b, hb, hbd⟩
      exact ⟨b, List.mem_cons_of_mem _ hb, hbd⟩

theorem attemptPairs_mem_fst {blocks : List DateBlock} {p : CalDate × List Char}
    (hp : p ∈ attemptPairs blocks) : p.1 ∈ blocks.map DateBlock.date := by
  rcases List.mem_bind.mp hp with ⟨b, hb, hpb⟩
  rcases List.mem_map.mp hpb with ⟨f, _, hf⟩
  rw [← hf]
  exact List.mem_map_of_mem DateBlock.date hb

theorem attemptPairs_nodup {blocks : List DateBlock}
    (hdates : (blocks.map DateBlock.date).Nodup)
    (hatt : ∀ b ∈ blocks, b.attempts.Nodup) : (attemptPairs blocks).Nodup := by
  induction blocks with
  | nil => exact List.nodup_nil
  | cons b rest ih =>
    simp only [List.map_cons, List.nodup_cons] at hdates
    have hthis : (b.attempts.map (fun f => (b.date, f))).Nodup := by
      refine List.Nodup.map ?_ (hatt b (List.mem_cons_self _ _))
      intro f g hfg
      exact (Prod.mk.injEq _ _ _ _).mp hfg |>.2
    have hrest : (attemptPairs rest).Nodup :=
      ih hdates.2 (fun x hx => hatt x (List.mem_cons_of_mem _ hx))
    have hdisj : ∀ p ∈ b.attempts.map (fun f => (b.date, f)), p ∉ attemptPairs rest := by
      intro p hp hp'
      rcases List.mem_map.mp hp with ⟨f, _, hf⟩
      have h1 : p.1 = b.date := by rw [← hf]
      have h2 : p.1 ∈ rest.map DateBlock.date := attemptPairs_mem_fst hp'
      exact hdates.1 (h1 ▸ h2)
    have : attemptPairs (b :: rest) =
        b.attempts.map (fun f => (b.date, f)) ++ attemptPairs rest := by
      simp [attemptPairs]
    rw [this, List.nodup_append]
    exact ⟨hthis, hrest, fun p hp => hdisj p hp⟩

theorem validMinStartDate : ValidDate minStartDate := by decide

theorem clampedStart_spec {startDate : CalDate} (hv : ValidDate startDate) :
    ValidDate (clampedStart startDate) ∧ dateLe minStartDate (clampedStart startDate) := by
  unfold clampedStart
  split_ifs with h
  · exact ⟨validMinStartDate, dateLe_refl _⟩
  · refine ⟨hv, ?_⟩
    rcases dateLt_total minStartDate startDate with h' | h' | h'
    · exact dateLe_of_dateLt h'
    · exact Or.inr h'
    · exact absurd h' h

theorem download_pdfs_dates_nodup {fetch : List Char → Bool} {startD endD : CalDate}
    (hvs : ValidDate startD) (hve : ValidDate endD) :
    ((download_pdfs fetch startD endD).map DateBlock.date).Nodup := by
  obtain ⟨hvc, hmin⟩ := clampedStart_spec hvs
  have hchain := @probeLoop_chain fetch (clampedStart startD) hvc hmin
    (dateMeasure endD + 1 - dateMeasure (clampedStart startD)) endD hve
  haveI : IsTrans DateBlock (fun a b : DateBlock => dateLt b.date a.date) :=
    ⟨fun _ _ _ h1 h2 => dateLt_trans h2 h1⟩
  have hpw := List.chain'_iff_pairwise.mp hchain
  have := hpw.map DateBlock.date
    (fun a b (h : dateLt b.date a.date) => (ne_of_dateLt h).symm)
  exact this

/-- Claim C5: for every probed date the locator tries the filename date
encodings in the fixed order MMDDYY then MMDDYYYY (the attempted list
is always a prefix of that order); the first encoding whose fetch
succeeds is recorded in the manifest entry and the remaining encodings
for that date are skipped; and over a whole run no (date, encoding)
pair is ever attempted twice, so a failed attempt is never retried
against the identical URL — the loop only proceeds to the next
encoding, then the next date. -/
theorem claim_C5 (fetch : List Char → Bool) (c startD endD : CalDate)
    (hvs : ValidDate startD) (hve : ValidDate endD) :
    ((tryFormats fetch c).1 = [mmddyy c] ∨
      (tryFormats fetch c).1 = [mmddyy c, mmddyyyy c]) ∧
    (fetch (urlFor (mmddyy c)) = true →
      tryFormats fetch c =
        ([mmddyy c], some ⟨c, mmddyy c, urlFor (mmddyy c), savedFilename c (mmddyy c)⟩)) ∧
    (fetch (urlFor (mmddyy c)) = false → fetch (urlFor (mmddyyyy c)) = true →
      tryFormats fetch c =
        ([mmddyy c, mmddyyyy c],
          some ⟨c, mmddyyyy c, urlFor (mmddyyyy c), savedFilename c (mmddyyyy c)⟩)) ∧
    (attemptPairs (download_pdfs fetch startD endD)).Nodup := by
  refine ⟨tryFormats_attempts_shape fetch c,
    fun h1 => tryFormats_first_success h1,
    fun h1 h2 => tryFormats_second_success h1 h2, ?_⟩
  apply attemptPairs_nodup (download_pdfs_dates_nodup hvs hve)
  intro b hb
  obtain ⟨hvc, hmin⟩ := clampedStart_spec hvs
  have := @probeLoop_mem fetch (clampedStart startD) hvc hmin
    (dateMeasure endD + 1 - dateMeasure (clampedStart startD)) endD hve b hb
  rw [this.2.2.2.1]
  exact tryFormats_attempts_nodup fetch b.date

/-- Witness for C5, the spec's own example: probing 2020-06-15 with a
fetch oracle on which encoding "061520" fails and "06152020" succeeds
records the manifest entry under "06152020", after attempting exactly
["061520", "06152020"] in that order, and the run makes no duplicate
(date, encoding) attempt. -/
theorem claim_C5_witness :
    ((fun u => decide (u = urlFor (mmddyyyy ⟨2020, 6, 15⟩))) (urlFor (mmddyy ⟨2020, 6, 15⟩)) = false) ∧
    ((fun u => decide (u = urlFor (mmddyyyy ⟨2020, 6, 15⟩))) (urlFor (mmddyyyy ⟨2020, 6, 15⟩)) = true) ∧
    tryFormats (fun u => decide (u = urlFor (mmddyyyy ⟨2020, 6, 15⟩))) ⟨2020, 6, 15⟩ =
      ([mmddyy ⟨2020, 6, 15⟩, mmddyyyy ⟨2020, 6, 15⟩],
        some ⟨⟨2020, 6, 15⟩, mmddyyyy ⟨2020, 6, 15⟩, urlFor (mmddyyyy ⟨2020, 6, 15⟩),
          savedFilename ⟨2020, 6, 15⟩ (mmddyyyy ⟨2020, 6, 15⟩)⟩) ∧
    (attemptPairs (download_pdfs (fun u => decide (u = urlFor (mmddyyyy ⟨2020, 6, 15⟩)))
      ⟨2020, 6, 15⟩ ⟨2020, 6, 15⟩)).Nodup :=
  ⟨by decide, by decide,
    (claim_C5 (fun u => decide (u = urlFor (mmddyyyy ⟨2020, 6, 15⟩))) ⟨2020, 6, 15⟩
      ⟨2020, 6, 15⟩ ⟨2020, 6, 15⟩ (by decide) (by decide)).2.2.1 (by decide) (by decide),
    (claim_C5 (fun u => decide (u = urlFor (mmddyyyy ⟨2020, 6, 15⟩))) ⟨2020, 6, 15⟩
      ⟨2020, 6, 15⟩ ⟨2020, 6, 15⟩ (by decide) (by decide)).2.2.2⟩

/-- Claim C8: a requested start date earlier than the 2016-01-01
historical origin is clamped to it — the run is identical to one
requested with start 2016-01-01 — and dates are probed in strictly
descending order from the end date down to the 2016-01-01 floor
inclusive, all probed dates lying between the floor and the end date. -/
theorem claim_C8 (fetch : List Char → Bool) (startD endD : CalDate)
    (hvs : ValidDate startD) (hve : ValidDate endD)
    (hlt : dateLt startD minStartDate) (hrange : dateLe minStartDate endD) :
    download_pdfs fetch startD endD = download_pdfs fetch minStartDate endD ∧
    List.Chain' (fun a b : DateBlock => dateLt b.date a.date)
      (download_pdfs fetch startD endD) ∧
    (∀ b ∈ download_pdfs fetch startD endD,
      dateLe minStartDate b.date ∧ dateLe b.date endD) ∧
    (∃ b ∈ download_pdfs fetch startD endD, b.date = minStartDate) := by
  obtain ⟨hvc, hmin⟩ := clampedStart_spec hvs
  have hclamp : clampedStart startD = minStartDate := by
    unfold clampedStart
    rw [if_pos hlt]
  have hclamp2 : clampedStart minStartDate = minStartDate := by
    unfold clampedStart
    rw [if_neg (dateLt_irrefl minStartDate)]
  refine ⟨?_, ?_, ?_, ?_⟩
  · unfold download_pdfs
    rw [hclamp, hclamp2]
  · exact probeLoop_chain hvc hmin
      (dateMeasure endD + 1 - dateMeasure (clampedStart startD)) endD hve
  · intro b hb
    have := probeLoop_mem hvc hmin
      (dateMeasure endD + 1 - dateMeasure (clampedStart startD)) endD hve b hb
    have h1 := this.2.1
    have h2 := this.2.2.1
    rw [hclamp] at h1
    exact ⟨h1, h2⟩
  · have hle : dateLe (clampedStart startD) endD := by rw [hclamp]; exact hrange
    have hmono := dateMeasure_mono hvc hve hle
    rw [← hclamp]
    exact probeLoop_reach hvc hmin
      (dateMeasure endD + 1 - dateMeasure (clampedStart startD)) endD hve hle (by omega)

/-- Witness for C8: requesting start 2015-12-31 (before the origin)
with end 2016-01-02 behaves exactly like a request started at
2016-01-01: the probe order is descending, stays within the floor and
the end date, and reaches the 2016-01-01 floor. -/
theorem claim_C8_witness :
    download_pdfs (fun _ => false) ⟨2015, 12, 31⟩ ⟨2016, 1, 2⟩ =
      download_pdfs (fun _ => false) ⟨2016, 1, 1⟩ ⟨2016, 1, 2⟩ ∧
    List.Chain' (fun a b : DateBlock => dateLt b.date a.date)
      (download_pdfs (fun _ => false) ⟨2015, 12, 31⟩ ⟨2016, 1, 2⟩) ∧
    (∀ b ∈ download_pdfs (fun _ => false) ⟨2015, 12, 31⟩ ⟨2016, 1, 2⟩,
      dateLe minStartDate b.date ∧ dateLe b.date ⟨2016, 1, 2⟩) ∧
    (∃ b ∈ download_pdfs (fun _ => false) ⟨2015, 12, 31⟩ ⟨2016, 1, 2⟩,
      b.date = minStartDate) :=
  claim_C8 (fun _ => false) ⟨2015, 12, 31⟩ ⟨2016, 1, 2⟩
    (by decide) (by decide) (by decide) (by decide)

/-- Claim C9 evaluation at the failing input: probing the single date
2020-06-15 with a fetch oracle that fails on both encodings issues the
two HTTP requests back to back with no sleep between them; the single
`time.sleep(rate_limit)` of the iteration happens only after both
attempts, so consecutive requests within one date are not separated by
the rate-limit delay. -/
theorem claim_C9 :
    traceOf (download_pdfs (fun _ => false) ⟨2020, 6, 15⟩ ⟨2020, 6, 15⟩) =
      [Event.request ⟨2020, 6, 15⟩ (urlFor (mmddyy ⟨2020, 6, 15⟩)),
       Event.request ⟨2020, 6, 15⟩ (urlFor (mmddyyyy ⟨2020, 6, 15⟩)),
       Event.sleep] := by
  decide

/-! ## Chart page extractor

Embedding of `extract_charts`
(`src/factset_data_collector/core/extractor.py`).  A PDF document is a
filename, an existence flag (`pdf_path.exists()`), and a list of
pages; a page carries its extracted text (`page.extract_text()`) and
its word boxes (`page.extract_words()`, text plus vertical offset
`top`).  The PNG store (the `outpath` directory) is a list of existing
file names.  Strings are lists of characters. -/

/-- Split a character list at every occurrence of a separator, like
Python `str.split(sep)` (so `"" ↦ [""]`, and separators at the ends
produce empty fields). -/
def splitOnChar (sep : Char) : List Char → List (List Char)
  | [] => [[]]
  | c :: rest =>
    if c = sep then [] :: splitOnChar sep rest
    else
      match splitOnChar sep rest with
      | [] => [[c]]
      | h :: t => (c :: h) :: t

/-- Join character lists with a separator, like Python `sep.join`. -/
def joinWithChar (sep : Char) : List (List Char) → List Char
  | [] => []
  | [x] => x
  | x :: rest => x ++ sep :: joinWithChar sep rest

/-- Embedding of `pathlib.Path.stem`: the file name with its last
dot-suffix removed (a name without a dot is returned unchanged). -/
def stemOf (name : List Char) : List Char :=
  let parts := splitOnChar '.' name
  if parts.length ≤ 1 then name else joinWithChar '.' parts.dropLast

/-- ASCII decimal digit test. -/
def isDigitChar (c : Char) : Bool := 48 ≤ c.toNat && c.toNat ≤ 57

/-- Decimal value of a digit string (the `int` conversions inside
`strptime`). -/
def parseNat (s : List Char) : Nat :=
  s.foldl (fun acc c => 10 * acc + (c.toNat - 48)) 0

/-- Embedding of `datetime.strptime(date_str, "%Y%m%d")` on the
8-character field: four year digits, two month digits, two day digits,
validated exactly as a Python `datetime` construction validates them;
`none` models the `ValueError` path. -/
def parseYmd (s : List Char) : Option CalDate :=
  if s.length = 8 ∧ s.all isDigitChar then
    let y := parseNat (s.take 4)
    let m := parseNat ((s.drop 4).take 2)
    let d := parseNat (s.drop 6)
    if ValidDate ⟨y, m, d⟩ then some ⟨y, m, d⟩ else none
  else none

/-- The fixed chart-title keywords (`KEYWORDS` in the source). -/
def KEYWORDS : List (List Char) :=
  ["Bottom-Up EPS Estimates: Current & Historical".toList,
   "Bottom-up EPS Estimates: Current & Historical".toList,
   "Bottom-Up EPS: Current & Historical".toList]

/-- Whether the first list starts with the second. -/
def listStartsWith : List Char → List Char → Bool
  | _, [] => true
  | [], _ :: _ => false
  | c :: cs, p :: ps => c = p && listStartsWith cs ps

/-- Embedding of the Python substring test `needle in hay`. -/
def containsSub : List Char → List Char → Bool
  | [], needle => needle.isEmpty
  | c :: rest, needle => listStartsWith (c :: rest) needle || containsSub rest needle

/-- First whitespace-separated token of a keyword (`kw.split()[0]`). -/
def firstSpaceToken (kw : List Char) : List Char :=
  (splitOnChar ' ' kw).headD []

/-- Word box from `page.extract_words()`: its text and vertical offset. -/
structure WordBox where
  text : List Char
  top : Int
deriving DecidableEq, Repr

/-- One PDF page: extracted whole-page text and word boxes. -/
structure Page where
  text : List Char
  words : List WordBox
deriving DecidableEq, Repr

/-- Candidate test: `text and any(kw in text for kw in KEYWORDS)`
(an empty extraction is falsy and contains no keyword anyway). -/
def isCandidate (p : Page) : Bool :=
  KEYWORDS.any (fun kw => containsSub p.text kw)

/-- Bottom-of-page test: some word box whose text contains the first
word of a keyword sits at vertical offset strictly greater than 700
(`word['top'] > 700`). -/
def keywordAtBottom (p : Page) : Bool :=
  p.words.any (fun w =>
    KEYWORDS.any (fun kw => containsSub w.text (firstSpaceToken kw)) && decide ((700 : Int) < w.top))

/-- Page scan of `extract_charts`: find the first candidate page; if
its matching title sits at the bottom and a next page exists, rasterize
the next page, else the candidate page itself.  Returns the 0-based
index of the rasterized page (`none` = "No EPS chart page found"). -/
def selectPageGo (total : Nat) : List Page → Nat → Option Nat
  | [], _ => none
  | p :: rest, i =>
    if isCandidate p then
      if keywordAtBottom p && decide (i + 1 < total) then some (i + 1) else some i
    else selectPageGo total rest (i + 1)

/-- Index of the page rasterized for a document, if any. -/
def selectPage (pages : List Page) : Option Nat :=
  selectPageGo pages.length pages 0

/-- One input document of `extract_charts`. -/
structure PdfDoc where
  name : List Char
  pdfExists : Bool
  pages : List Page
deriving DecidableEq, Repr

/-- The filename date field: `pdf_path.stem.split('_')[1]` (`none`
models the `IndexError` path). -/
def stemField1 (name : List Char) : Option (List Char) :=
  (splitOnChar '_' (stemOf name)).get? 1

/-- Processing of one document: skip if the file is missing; skip if no
date can be extracted from the filename; if the expected PNG already
exists, return its path without scanning; otherwise scan the pages and,
if a candidate page is found, rasterize (adding the PNG to the store)
and return its path.  Result: updated PNG store and appended paths. -/
def extractOne (fs : List (List Char)) (doc : PdfDoc) :
    List (List Char) × List (List Char) :=
  if doc.pdfExists = false then (fs, [])
  else
    match stemField1 doc.name with
    | none => (fs, [])
    | some ds =>
      match parseYmd ds with
      | none => (fs, [])
      | some _ =>
        let out := ds ++ ".png".toList
        if out ∈ fs then (fs, [out])
        else
          match selectPage doc.pages with
          | some _ => (fs ++ [out], [out])
          | none => (fs, [])

/-- Embedding of `extract_charts`: fold `extractOne` over the input
documents, accumulating the produced PNG paths in order. -/
def extract_charts (fs : List (List Char)) : List PdfDoc → List (List Char) × List (List Char)
  | [] => (fs, [])
  | doc :: rest =>
    let r1 := extractOne fs doc
    let r2 := extract_charts r1.1 rest
    (r2.1, r1.2 ++ r2.2)

/-! ### Page selection lemmas (claim C4) -/

theorem selectPageGo_spec (total : Nat) :
    ∀ (l : List Page) (start i : Nat) (p : Page),
      l.get? i = some p → isCandidate p = true →
      (∀ j q, j < i → l.get? j = some q → isCandidate q = false) →
      selectPageGo total l start =
        some (if keywordAtBottom p && decide (start + i + 1 < total) then start + i + 1
              else start + i) := by
  intro l
  induction l with
  | nil => intro start i p hp _ _; cases hp
  | cons x xs ih =>
    intro start i p hp hc hfirst
    cases i with
    | zero =>
      rw [List.get?_cons_zero] at hp
      injection hp with hp
      subst hp
      simp only [selectPageGo, hc, if_true]
      norm_num
      split_ifs <;> rfl
    | succ i' =>
      have hx : isCandidate x = false := hfirst 0 x (Nat.succ_pos i') rfl
      rw [List.get?_cons_succ] at hp
      have hfirst' : ∀ j q, j < i' → xs.get? j = some q → isCandidate q = false := by
        intro j q hj hq
        exact hfirst (j + 1) q (Nat.succ_lt_succ hj) (by rw [List.get?_cons_succ]; exact hq)
      have h0 := ih (start + 1) i' p hp hc hfirst'
      simp only [selectPageGo, hx, Bool.false_eq_true, if_false]
      rw [h0]
      have h1 : start + 1 + i' = start + (i' + 1) := by omega
      rw [h1]

/-- Claim C4: if page index `i` (0-based) is the first candidate page —
its text contains a chart-title keyword and no earlier page's does —
then the rasterized page is `i+1` when the matching title text sits in
a word box with vertical offset exceeding 700 and a next page exists,
and `i` itself when the offset is at or below the threshold or no next
page exists. -/
theorem claim_C4 (pages : List Page) (i : Nat) (p : Page)
    (hp : pages.get? i = some p) (hc : isCandidate p = true)
    (hfirst : ∀ j q, j < i → pages.get? j = some q → isCandidate q = false) :
    selectPage pages =
      some (if keywordAtBottom p && decide (i + 1 < pages.length) then i + 1 else i) := by
  have := selectPageGo_spec pages.length pages 0 i p hp hc hfirst
  simp only [Nat.zero_add] at this
  rw [selectPage, this]

/-- Witness for C4, the spec's two scenarios: the title found on page 5
(0-based index 4) in a word box at vertical offset 650 (at or below the
700 threshold) rasterizes page 5 itself; the same title at offset 720
with a page 6 present rasterizes page 6 (0-based index 5). -/
theorem claim_C4_witness :
    selectPage [⟨[], []⟩, ⟨[], []⟩, ⟨[], []⟩, ⟨[], []⟩,
      ⟨"Bottom-Up EPS Estimates: Current & Historical".toList,
        [⟨"Bottom-Up".toList, 650⟩]⟩] = some 4 ∧
    selectPage [⟨[], []⟩, ⟨[], []⟩, ⟨[], []⟩, ⟨[], []⟩,
      ⟨"Bottom-Up EPS Estimates: Current & Historical".toList,
        [⟨"Bottom-Up".toList, 720⟩]⟩, ⟨[], []⟩] = some 5 := by
  constructor
  · have hA := claim_C4
      [⟨[], []⟩, ⟨[], []⟩, ⟨[], []⟩, ⟨[], []⟩,
        ⟨"Bottom-Up EPS Estimates: Current & Historical".toList,
          [⟨"Bottom-Up".toList, 650⟩]⟩] 4
      ⟨"Bottom-Up EPS Estimates: Current & Historical".toList,
        [⟨"Bottom-Up".toList, 650⟩]⟩
      rfl (by decide) ?hfirstA
    case hfirstA =>
      intro j q hj hq
      interval_cases j <;>
        simp only [List.get?_cons_zero, List.get?_cons_succ] at hq <;>
        (injection hq with h; rw [← h]; decide)
    rw [hA]
    decide
  · have hB := claim_C4
      [⟨[], []⟩, ⟨[], []⟩, ⟨[], []⟩, ⟨[], []⟩,
        ⟨"Bottom-Up EPS Estimates: Current & Historical".toList,
          [⟨"Bottom-Up".toList, 720⟩]⟩, ⟨[], []⟩] 4
      ⟨"Bottom-Up EPS Estimates: Current & Historical".toList,
        [⟨"Bottom-Up".toList, 720⟩]⟩
      rfl (by decide) ?hfirstB
    case hfirstB =>
      intro j q hj hq
      interval_cases j <;>
        simp only [List.get?_cons_zero, List.get?_cons_succ] at hq <;>
        (injection hq with h; rw [← h]; decide)
    rw [hB]
    decide

/-! ### Idempotent-cache lemmas (claim C7) -/

/-- The filename date key of a document that will not be skipped:
`some ds` iff the file exists, the stem has a second underscore field
`ds`, and `ds` parses as a date. -/
def effKey (doc : PdfDoc) : Option (List Char) :=
  if doc.pdfExists then
    match stemField1 doc.name with
    | some ds =>
      match parseYmd ds with
      | some _ => some ds
      | none => none
    | none => none
  else none

theorem extractOne_eq (fs : List (List Char)) (doc : PdfDoc) :
    extractOne fs doc =
      match effKey doc with
      | none => (fs, [])
      | some ds =>
        if ds ++ ".png".toList ∈ fs then (fs, [ds ++ ".png".toList])
        else
          match selectPage doc.pages with
          | some _ => (fs ++ [ds ++ ".png".toList], [ds ++ ".png".toList])
          | none => (fs, []) := by
  cases hpe : doc.pdfExists
  · simp [extractOne, effKey, hpe]
  · cases h1 : stemField1 doc.name
    · simp [extractOne, effKey, hpe, h1]
    · rename_i ds
      cases h2 : parseYmd ds
      · simp [extractOne, effKey, hpe, h1, h2]
      · simp [extractOne, effKey, hpe, h1, h2]

theorem extract_charts_fs_mono {x : List Char} :
    ∀ (docs : List PdfDoc) (fs : List (List Char)),
      x ∈ fs → x ∈ (extract_charts fs docs).1 := by
  intro docs
  induction docs with
  | nil => intro fs h; exact h
  | cons d ds ih =>
    intro fs h
    show x ∈ (extract_charts (extractOne fs d).1 ds).1
    apply ih
    rw [extractOne_eq]
    cases effKey d with
    | none => exact h
    | some k =>
      simp only
      split
      · exact h
      · cases hsel : selectPage d.pages with
        | some _ => simp only [hsel]; exact List.mem_append_left _ h
        | none => simp only [hsel]; exact h

theorem extract_charts_fs_new {x : List Char} :
    ∀ (docs : List PdfDoc) (fs : List (List Char)),
      x ∈ (extract_charts fs docs).1 →
      x ∈ fs ∨ ∃ doc ∈ docs, ∃ ds, effKey doc = some ds ∧ x = ds ++ ".png".toList := by
  intro docs
  induction docs with
  | nil => intro fs h; exact Or.inl h
  | cons d ds ih =>
    intro fs h
    replace h : x ∈ (extract_charts (extractOne fs d).1 ds).1 := h
    rcases ih (extractOne fs d).1 h with h1 | ⟨doc, hdoc, k, hk, hx⟩
    · rw [extractOne_eq] at h1
      cases hek : effKey d with
      | none => rw [hek] at h1; exact Or.inl h1
      | some k =>
        rw [hek] at h1
        simp only at h1
        split at h1
        · exact Or.inl h1
        · cases hsel : selectPage d.pages with
          | some _ =>
            rw [hsel] at h1
            rcases List.mem_append.mp h1 with h2 | h2
            · exact Or.inl h2
            · right
              refine ⟨d, List.mem_cons_self _ _, k, hek, ?_⟩
              simpa using h2
          | none => rw [hsel] at h1; exact Or.inl h1
    · exact Or.inr ⟨doc, List.mem_cons_of_mem _ hdoc, k, hk, hx⟩

theorem extract_charts_cons (fs : List (List Char)) (d : PdfDoc) (ds : List PdfDoc) :
    extract_charts fs (d :: ds) =
      ((extract_charts (extractOne fs d).1 ds).1,
       (extractOne fs d).2 ++ (extract_charts (extractOne fs d).1 ds).2) := rfl

theorem extractOne_eq_some {fs : List (List Char)} {doc : PdfDoc} {ds : List Char}
    (hek : effKey doc = some ds) :
    extractOne fs doc =
      if ds ++ ".png".toList ∈ fs then (fs, [ds ++ ".png".toList])
      else
        match selectPage doc.pages with
        | some _ => (fs ++ [ds ++ ".png".toList], [ds ++ ".png".toList])
        | none => (fs, []) := by
  rw [extractOne_eq, hek]

theorem extractOne_cache {fs : List (List Char)} {doc : PdfDoc} {ds : List Char}
    (hek : effKey doc = some ds) (hmem : ds ++ ".png".toList ∈ fs) :
    extractOne fs doc = (fs, [ds ++ ".png".toList]) := by
  rw [extractOne_eq_some hek, if_pos hmem]

theorem extract_charts_idem :
    ∀ (docs : List PdfDoc) (fs : List (List Char)),
      (docs.filterMap effKey).Nodup →
      extract_charts (extract_charts fs docs).1 docs = extract_charts fs docs := by
  intro docs
  induction docs with
  | nil => intro fs _; rfl
  | cons d ds ih =>
    intro fs hnd
    cases hek : effKey d with
    | none =>
      have hnd' : (ds.filterMap effKey).Nodup := by
        simpa only [List.filterMap_cons, hek] using hnd
      have hstep : ∀ g : List (List Char), extractOne g d = (g, []) := by
        intro g; rw [extractOne_eq, hek]
      have e1 : extract_charts fs (d :: ds) =
          ((extract_charts fs ds).1, [] ++ (extract_charts fs ds).2) := by
        simp only [extract_charts_cons, hstep]
      rw [e1]
      simp only [extract_charts_cons, hstep]
      rw [ih fs hnd']
    | some k =>
      have hnd2 := hnd
      simp only [List.filterMap_cons, hek, List.nodup_cons] at hnd2
      obtain ⟨hnotin, hnd'⟩ := hnd2
      by_cases hmem : k ++ ".png".toList ∈ fs
      · have hstep : extractOne fs d = (fs, [k ++ ".png".toList]) :=
          extractOne_cache hek hmem
        have e1 : extract_charts fs (d :: ds) =
            ((extract_charts fs ds).1,
              [k ++ ".png".toList] ++ (extract_charts fs ds).2) := by
          simp only [extract_charts_cons, hstep]
        have hmem1 : k ++ ".png".toList ∈ (extract_charts fs ds).1 :=
          extract_charts_fs_mono ds fs hmem
        have hstep2 : extractOne (extract_charts fs ds).1 d =
            ((extract_charts fs ds).1, [k ++ ".png".toList]) :=
          extractOne_cache hek hmem1
        rw [e1]
        simp only [extract_charts_cons, hstep2]
        rw [ih fs hnd']
      · cases hsel : selectPage d.pages with
        | none =>
          have hstep : extractOne fs d = (fs, []) := by
            rw [extractOne_eq_some hek, if_neg hmem, hsel]
          have e1 : extract_charts fs (d :: ds) =
              ((extract_charts fs ds).1, [] ++ (extract_charts fs ds).2) := by
            simp only [extract_charts_cons, hstep]
          have hmem1 : k ++ ".png".toList ∉ (extract_charts fs ds).1 := by
            intro hin
            rcases extract_charts_fs_new ds fs hin with h1 | ⟨doc, hdoc, k2, hk2, hx⟩
            · exact hmem h1
            · have hkk : k2 = k := List.append_cancel_right hx.symm
              subst hkk
              exact hnotin (List.mem_filterMap.mpr ⟨doc, hdoc, hk2⟩)
          have hstep2 : extractOne (extract_charts fs ds).1 d =
              ((extract_charts fs ds).1, []) := by
            rw [extractOne_eq_some hek, if_neg hmem1, hsel]
          rw [e1]
          simp only [extract_charts_cons, hstep2]
          rw [ih fs hnd']
        | some j =>
          have hstep : extractOne fs d =
              (fs ++ [k ++ ".png".toList], [k ++ ".png".toList]) := by
            rw [extractOne_eq_some hek, if_neg hmem, hsel]
          have e1 : extract_charts fs (d :: ds) =
              ((extract_charts (fs ++ [k ++ ".png".toList]) ds).1,
                [k ++ ".png".toList] ++ (extract_charts (fs ++ [k ++ ".png".toList]) ds).2) := by
            simp only [extract_charts_cons, hstep]
          have hmem1 : k ++ ".png".toList ∈ (extract_charts (fs ++ [k ++ ".png".toList]) ds).1 :=
            extract_charts_fs_mono ds _ (List.mem_append_right _ (List.mem_singleton.mpr rfl))
          have hstep2 : extractOne (extract_charts (fs ++ [k ++ ".png".toList]) ds).1 d =
              ((extract_charts (fs ++ [k ++ ".png".toList]) ds).1, [k ++ ".png".toList]) :=
            extractOne_cache hek hmem1
          rw [e1]
          simp only [extract_charts_cons, hstep2]
          rw [ih (fs ++ [k ++ ".png".toList]) hnd']

/-- Claim C7, amended: a document whose expected output image already
exists is treated as already processed — its existing image path is
returned without any page scan — and, provided the input documents
carry pairwise-distinct filename date keys, a second run of
`extract_charts` over the same inputs returns exactly the same path
list (with duplicate keys, a chart-less document can gain a cache hit
from another document's image on the second run). -/
theorem claim_C7 (fs : List (List Char)) (docs : List PdfDoc)
    (hnd : (docs.filterMap effKey).Nodup) :
    (∀ (doc : PdfDoc) (ds : List Char), effKey doc = some ds →
      ds ++ ".png".toList ∈ fs → extractOne fs doc = (fs, [ds ++ ".png".toList])) ∧
    extract_charts (extract_charts fs docs).1 docs = extract_charts fs docs :=
  ⟨fun _ _ hek hmem => extractOne_cache hek hmem, extract_charts_idem docs fs hnd⟩

/-- Witness for C7: two documents for distinct dates (2020-01-01 with a
chart page, 2020-01-08 without) — the second run over the same inputs
reproduces the first run's store and path list exactly. -/
theorem claim_C7_witness :
    (([(⟨"EarningsInsight_20200101_010120.pdf".toList, true,
          [⟨"Bottom-Up EPS: Current & Historical".toList, []⟩]⟩ : PdfDoc),
        ⟨"EarningsInsight_20200108_010820.pdf".toList, true, []⟩].filterMap effKey).Nodup) ∧
    extract_charts
      (extract_charts []
        [⟨"EarningsInsight_20200101_010120.pdf".toList, true,
          [⟨"Bottom-Up EPS: Current & Historical".toList, []⟩]⟩,
         ⟨"EarningsInsight_20200108_010820.pdf".toList, true, []⟩]).1
      [⟨"EarningsInsight_20200101_010120.pdf".toList, true,
          [⟨"Bottom-Up EPS: Current & Historical".toList, []⟩]⟩,
       ⟨"EarningsInsight_20200108_010820.pdf".toList, true, []⟩] =
    extract_charts []
      [⟨"EarningsInsight_20200101_010120.pdf".toList, true,
          [⟨"Bottom-Up EPS: Current & Historical".toList, []⟩]⟩,
       ⟨"EarningsInsight_20200108_010820.pdf".toList, true, []⟩] :=
  ⟨by decide,
    (claim_C7 []
      [⟨"EarningsInsight_20200101_010120.pdf".toList, true,
          [⟨"Bottom-Up EPS: Current & Historical".toList, []⟩]⟩,
       ⟨"EarningsInsight_20200108_010820.pdf".toList, true, []⟩] (by decide)).2⟩

/-- Counterexample for C7 as frozen: two documents sharing the filename
date 2020-01-01 — the first has no chart page, the second has one.  The
first run extracts one image (from the second document); in the second
run the first document finds the image already present and returns it
as a cache hit, so the second run returns two paths instead of one. -/
theorem claim_C7_counterexample :
    extract_charts
      (extract_charts []
        [⟨"EarningsInsight_20200101_010120.pdf".toList, true, []⟩,
         ⟨"EarningsInsight_20200101_01012020.pdf".toList, true,
          [⟨"Bottom-Up EPS: Current & Historical".toList, []⟩]⟩]).1
      [⟨"EarningsInsight_20200101_010120.pdf".toList, true, []⟩,
       ⟨"EarningsInsight_20200101_01012020.pdf".toList, true,
          [⟨"Bottom-Up EPS: Current & Historical".toList, []⟩]⟩] ≠
    extract_charts []
      [⟨"EarningsInsight_20200101_010120.pdf".toList, true, []⟩,
       ⟨"EarningsInsight_20200101_01012020.pdf".toList, true,
          [⟨"Bottom-Up EPS: Current & Historical".toList, []⟩]⟩] := by
  decide

/-! ### Filename round-trip lemmas (claim C10) -/

theorem charOfNat_digit_toNat {r : Nat} (h : r < 10) : (Char.ofNat (48 + r)).toNat = 48 + r := by
  interval_cases r <;> decide

theorem renderPad_digits : ∀ (k n : Nat), ∀ c ∈ renderPad k n, 48 ≤ c.toNat ∧ c.toNat ≤ 57 := by
  intro k
  induction k with
  | zero => intro n c hc; cases hc
  | succ k ih =>
    intro n c hc
    simp only [renderPad] at hc
    rcases List.mem_append.mp hc with h | h
    · exact ih (n / 10) c h
    · rcases List.mem_singleton.mp h with rfl
      have hr : n % 10 < 10 := Nat.mod_lt _ (by norm_num)
      rw [charOfNat_digit_toNat hr]
      omega

theorem renderPad_ne_underscore {k n : Nat} {c : Char} (hc : c ∈ renderPad k n) : c ≠ '_' := by
  intro h
  have := renderPad_digits k n c hc
  rw [h] at this
  exact absurd this (by decide)

theorem renderPad_ne_dot {k n : Nat} {c : Char} (hc : c ∈ renderPad k n) : c ≠ '.' := by
  intro h
  have := renderPad_digits k n c hc
  rw [h] at this
  exact absurd this (by decide)

theorem renderPad_isDigit {k n : Nat} {c : Char} (hc : c ∈ renderPad k n) :
    isDigitChar c = true := by
  have := renderPad_digits k n c hc
  simp only [isDigitChar, Bool.and_eq_true, decide_eq_true_eq]
  omega

theorem parseNat_renderPad_aux :
    ∀ (k n acc : Nat), n < 10 ^ k →
      (renderPad k n).foldl (fun a c => 10 * a + (c.toNat - 48)) acc = acc * 10 ^ k + n := by
  intro k
  induction k with
  | zero =>
    intro n acc h
    simp only [renderPad, List.foldl_nil, pow_zero]
    omega
  | succ k ih =>
    intro n acc h
    have hdiv : n / 10 < 10 ^ k := by
      rw [Nat.div_lt_iff_lt_mul (by norm_num : 0 < 10)]
      calc n < 10 ^ (k + 1) := h
        _ = 10 ^ k * 10 := by rw [pow_succ]
    simp only [renderPad, List.foldl_append, List.foldl_cons, List.foldl_nil]
    rw [ih (n / 10) acc hdiv]
    have hr : n % 10 < 10 := Nat.mod_lt _ (by norm_num)
    rw [charOfNat_digit_toNat hr]
    rw [pow_succ]
    have hmod : 10 * (n / 10) + n % 10 = n := Nat.div_add_mod n 10
    have hmul : acc * (10 ^ k * 10) = acc * 10 ^ k * 10 := by ring
    rw [hmul]
    generalize acc * 10 ^ k = q at *
    omega

theorem parseNat_renderPad {k n : Nat} (h : n < 10 ^ k) : parseNat (renderPad k n) = n := by
  unfold parseNat
  rw [parseNat_renderPad_aux k n 0 h]
  omega

theorem splitOnChar_no_sep {sep : Char} : ∀ {xs : List Char}, sep ∉ xs →
    splitOnChar sep xs = [xs] := by
  intro xs
  induction xs with
  | nil => intro _; rfl
  | cons c rest ih =>
    intro h
    have hc : ¬ (c = sep) := fun hh => h (hh ▸ List.mem_cons_self _ _)
    have hrest : sep ∉ rest := fun hh => h (List.mem_cons_of_mem _ hh)
    simp only [splitOnChar, if_neg hc, ih hrest]

theorem splitOnChar_append_sep {sep : Char} : ∀ {xs : List Char} (rest : List Char), sep ∉ xs →
    splitOnChar sep (xs ++ sep :: rest) = xs :: splitOnChar sep rest := by
  intro xs
  induction xs with
  | nil =>
    intro rest _
    simp [splitOnChar]
  | cons c xs' ih =>
    intro rest h
    have hc : ¬ (c = sep) := fun hh => h (hh ▸ List.mem_cons_self _ _)
    have hxs : sep ∉ xs' := fun hh => h (List.mem_cons_of_mem _ hh)
    simp only [List.cons_append, splitOnChar, if_neg hc]
    show (match splitOnChar sep (xs' ++ sep :: rest) with
          | [] => [[c]]
          | h :: t => (c :: h) :: t) = (c :: xs') :: splitOnChar sep rest
    rw [ih rest hxs]

theorem stemOf_two {a b : List Char} (ha : '.' ∉ a) (hb : '.' ∉ b) :
    stemOf (a ++ '.' :: b) = a := by
  unfold stemOf
  rw [splitOnChar_append_sep _ ha, splitOnChar_no_sep hb]
  simp [joinWithChar]

theorem splitOnChar_three {sep : Char} {a b c : List Char}
    (ha : sep ∉ a) (hb : sep ∉ b) (hc : sep ∉ c) :
    splitOnChar sep (a ++ sep :: (b ++ sep :: c)) = [a, b, c] := by
  rw [splitOnChar_append_sep _ ha, splitOnChar_append_sep _ hb, splitOnChar_no_sep hc]

theorem yyyymmdd_digits {c : CalDate} : ∀ ch ∈ yyyymmdd c, 48 ≤ ch.toNat ∧ ch.toNat ≤ 57 := by
  intro ch h
  simp only [yyyymmdd, List.append_assoc, List.mem_append] at h
  rcases h with h | h | h <;> exact renderPad_digits _ _ ch h

theorem mmddyy_digits {c : CalDate} : ∀ ch ∈ mmddyy c, 48 ≤ ch.toNat ∧ ch.toNat ≤ 57 := by
  intro ch h
  simp only [mmddyy, List.append_assoc, List.mem_append] at h
  rcases h with h | h | h <;> exact renderPad_digits _ _ ch h

theorem mmddyyyy_digits {c : CalDate} : ∀ ch ∈ mmddyyyy c, 48 ≤ ch.toNat ∧ ch.toNat ≤ 57 := by
  intro ch h
  simp only [mmddyyyy, List.append_assoc, List.mem_append] at h
  rcases h with h | h | h <;> exact renderPad_digits _ _ ch h

theorem not_dot_of_digits {l : List Char}
    (hd : ∀ ch ∈ l, 48 ≤ ch.toNat ∧ ch.toNat ≤ 57) : '.' ∉ l :=
  fun h => absurd (hd _ h) (by decide)

theorem not_us_of_digits {l : List Char}
    (hd : ∀ ch ∈ l, 48 ≤ ch.toNat ∧ ch.toNat ≤ 57) : '_' ∉ l :=
  fun h => absurd (hd _ h) (by decide)

theorem parseYmd_yyyymmdd {c : CalDate} (hv : ValidDate c) (hy : 1000 ≤ c.year) :
    parseYmd (yyyymmdd c) = some c := by
  obtain ⟨y, m, d⟩ := c
  have hv' := hv
  simp only [ValidDate] at hv'
  obtain ⟨h1, h2, h3, h4, h5, h6⟩ := hv'
  simp only at hy
  have hd31 : d ≤ 31 := le_trans h6 (daysInMonth_le_31 y m)
  have hassoc : yyyymmdd ⟨y, m, d⟩ = renderPad 4 y ++ (renderPad 2 m ++ renderPad 2 d) := by
    simp [yyyymmdd, List.append_assoc]
  have hlen8 : (yyyymmdd ⟨y, m, d⟩).length = 8 := by
    simp [yyyymmdd, renderPad_length]
  have hall : (yyyymmdd ⟨y, m, d⟩).all isDigitChar = true := by
    rw [List.all_eq_true]
    intro ch hch
    have := yyyymmdd_digits ch hch
    simp only [isDigitChar, Bool.and_eq_true, decide_eq_true_eq]
    omega
  have hlt_y : y < 10 ^ 4 := by
    have : (10 : Nat) ^ 4 = 10000 := by norm_num
    omega
  have hlt_m : m < 10 ^ 2 := by
    have : (10 : Nat) ^ 2 = 100 := by norm_num
    omega
  have hlt_d : d < 10 ^ 2 := by
    have : (10 : Nat) ^ 2 = 100 := by norm_num
    omega
  have htake4 : (yyyymmdd ⟨y, m, d⟩).take 4 = renderPad 4 y := by
    rw [hassoc]
    exact List.take_left' (renderPad_length 4 y)
  have hdrop4 : (yyyymmdd ⟨y, m, d⟩).drop 4 = renderPad 2 m ++ renderPad 2 d := by
    rw [hassoc]
    exact List.drop_left' (renderPad_length 4 y)
  have htake2 : ((yyyymmdd ⟨y, m, d⟩).drop 4).take 2 = renderPad 2 m := by
    rw [hdrop4]
    exact List.take_left' (renderPad_length 2 m)
  have hdrop6 : (yyyymmdd ⟨y, m, d⟩).drop 6 = renderPad 2 d := by
    have h46 : (yyyymmdd ⟨y, m, d⟩).drop 6 = ((yyyymmdd ⟨y, m, d⟩).drop 4).drop 2 := by
      rw [List.drop_drop]
    rw [h46, hdrop4]
    exact List.drop_left' (renderPad_length 2 m)
  have hpy : parseNat ((yyyymmdd ⟨y, m, d⟩).take 4) = y := by
    rw [htake4]; exact parseNat_renderPad hlt_y
  have hpm : parseNat (((yyyymmdd ⟨y, m, d⟩).drop 4).take 2) = m := by
    rw [htake2]; exact parseNat_renderPad hlt_m
  have hpd : parseNat ((yyyymmdd ⟨y, m, d⟩).drop 6) = d := by
    rw [hdrop6]; exact parseNat_renderPad hlt_d
  unfold parseYmd
  rw [if_pos (And.intro hlen8 hall)]
  simp only [hpy, hpm, hpd]
  rw [if_pos hv]

/-- Claim C10 (round trip between the locator and the page selector):
for every valid probed date and either filename date encoding, the
saved filename `EarningsInsight_{YYYYMMDD}_{fmt}.pdf` has the date
string `YYYYMMDD` as the second underscore field of its stem, and
parsing that field as `%Y%m%d` succeeds and yields exactly the probed
date — so no file produced by the locator is skipped by the extractor
for an unparseable filename date. -/
theorem claim_C10 (c : CalDate) (fmt : List Char)
    (hv : ValidDate c) (hy : 1000 ≤ c.year)
    (hfmt : fmt = mmddyy c ∨ fmt = mmddyyyy c) :
    stemField1 (savedFilename c fmt) = some (yyyymmdd c) ∧
    parseYmd (yyyymmdd c) = some c ∧
    (stemField1 (savedFilename c fmt)).bind parseYmd = some c := by
  have hfmt_digits : ∀ ch ∈ fmt, 48 ≤ ch.toNat ∧ ch.toNat ≤ 57 := by
    rcases hfmt with rfl | rfl
    · exact mmddyy_digits
    · exact mmddyyyy_digits
  have hY := @yyyymmdd_digits c
  have hstem : stemOf (savedFilename c fmt) =
      "EarningsInsight_".toList ++ yyyymmdd c ++ "_".toList ++ fmt := by
    have hshape : savedFilename c fmt =
        ("EarningsInsight_".toList ++ yyyymmdd c ++ "_".toList ++ fmt) ++
          '.' :: "pdf".toList := by
      simp [savedFilename, List.append_assoc]
    rw [hshape]
    apply stemOf_two
    · intro h
      simp only [List.append_assoc, List.mem_append] at h
      rcases h with h | h | h | h
      · exact absurd h (by decide)
      · exact not_dot_of_digits hY h
      · exact absurd h (by decide)
      · exact not_dot_of_digits hfmt_digits h
    · decide
  have hsplit : splitOnChar '_' (stemOf (savedFilename c fmt)) =
      ["EarningsInsight".toList, yyyymmdd c, fmt] := by
    rw [hstem]
    have hre : "EarningsInsight_".toList ++ yyyymmdd c ++ "_".toList ++ fmt =
        "EarningsInsight".toList ++ '_' :: (yyyymmdd c ++ '_' :: fmt) := by
      simp [List.append_assoc]
    rw [hre]
    exact splitOnChar_three (by decide) (not_us_of_digits hY) (not_us_of_digits hfmt_digits)
  have hfield : stemField1 (savedFilename c fmt) = some (yyyymmdd c) := by
    rw [stemField1, hsplit]
    rfl
  have hparse : parseYmd (yyyymmdd c) = some c := parseYmd_yyyymmdd hv hy
  refine ⟨hfield, hparse, ?_⟩
  rw [hfield]
  exact hparse

/-- Witness for C10: the date 2020-06-15 fetched under encoding
"06152020" is saved as `EarningsInsight_20200615_06152020.pdf`, whose
stem's second underscore field is "20200615", which parses back to
2020-06-15. -/
theorem claim_C10_witness :
    stemField1 (savedFilename ⟨2020, 6, 15⟩ (mmddyyyy ⟨2020, 6, 15⟩)) =
      some (yyyymmdd ⟨2020, 6, 15⟩) ∧
    parseYmd (yyyymmdd ⟨2020, 6, 15⟩) = some ⟨2020, 6, 15⟩ ∧
    (stemField1 (savedFilename ⟨2020, 6, 15⟩ (mmddyyyy ⟨2020, 6, 15⟩))).bind parseYmd =
      some ⟨2020, 6, 15⟩ :=
  claim_C10 ⟨2020, 6, 15⟩ (mmddyyyy ⟨2020, 6, 15⟩) (by decide) (by decide) (Or.inr rfl)

/-! ## Two-tier CSV writer

Embedding of `write_csv` (`src/service/csv_storage.py`):

```python
success = False
if CLOUD_STORAGE_ENABLED:
    cloud_key = cloud_path or _get_cloud_path(local_path)
    if write_csv_to_cloud(df, cloud_key):
        success = True
try:
    local_path.parent.mkdir(parents=True, exist_ok=True)
    df.to_csv(local_path, index=False)
    success = True
except Exception:
    pass
return success
```

The cloud write outcome and the local write outcome (exception or not)
are oracle booleans. -/

/-- Storage tiers addressed by `write_csv`. -/
inductive StorageTier where
  | cloud
  | loc
deriving DecidableEq, Repr

/-- Observable outcome of one `write_csv` call: the tiers attempted (in
order), which tier writes succeeded, and the returned boolean. -/
structure WriteOutcome where
  attempted : List StorageTier
  cloudWritten : Bool
  localWritten : Bool
  result : Bool
deriving DecidableEq, Repr

/-- Embedding of `write_csv`: attempt the cloud tier iff cloud storage
is enabled, then unconditionally attempt the local tier; the returned
flag is set by whichever write succeeds. -/
def write_csv (cloudEnabled cloudOk localOk : Bool) : WriteOutcome :=
  let success0 := false
  let cloudWritten := cloudEnabled && cloudOk
  let success1 := success0 || cloudWritten
  let localWritten := localOk
  let success2 := success1 || localWritten
  { attempted := (if cloudEnabled then [StorageTier.cloud] else []) ++ [StorageTier.loc],
    cloudWritten := cloudWritten,
    localWritten := localWritten,
    result := success2 }

/-- Claim C6, amended: `write_csv` writes to the cloud tier exactly
when cloud storage is enabled and unconditionally attempts the local
tier, but its returned boolean is `True` iff at least one tier was
written — partial persistence (one tier written, the other not) is
reported identically to full success, not distinctly. -/
theorem claim_C6 (cloudEnabled cloudOk localOk : Bool) :
    StorageTier.loc ∈ (write_csv cloudEnabled cloudOk localOk).attempted ∧
    (StorageTier.cloud ∈ (write_csv cloudEnabled cloudOk localOk).attempted ↔
      cloudEnabled = true) ∧
    (write_csv cloudEnabled cloudOk localOk).cloudWritten = (cloudEnabled && cloudOk) ∧
    (write_csv cloudEnabled cloudOk localOk).localWritten = localOk ∧
    (write_csv cloudEnabled cloudOk localOk).result =
      ((write_csv cloudEnabled cloudOk localOk).cloudWritten ||
        (write_csv cloudEnabled cloudOk localOk).localWritten) := by
  cases cloudEnabled <;> cases cloudOk <;> cases localOk <;> decide

/-- Counterexample for C6 as frozen: with cloud storage enabled, a
failed cloud write followed by a successful local write (partial
persistence) returns the same `True` as both tiers succeeding (full
success), so the result does not surface partial persistence
distinctly. -/
theorem claim_C6_counterexample :
    (write_csv true false true).cloudWritten = false ∧
    (write_csv true false true).localWritten = true ∧
    (write_csv true true true).cloudWritten = true ∧
    (write_csv true true true).localWritten = true ∧
    (write_csv true false true).result = (write_csv true true true).result := by
  decide
